import Mathlib

/-!
Verification of `scripts/extract_reviews.py`.

The script reads two Arrow partitions into a list of records
`{content: optional string, score: integer}`, cleans the concatenated list
(`clean`: null-drop + dedup-by-content, minimum-length filter, ambiguous-score
filter) and serializes the result as `content<TAB>score<NEWLINE>` lines.

Shallow embedding: records become a Lean structure, the list pipeline becomes
pure list functions, Python sets become lists used only through membership,
and `main`'s I/O is modelled by passing the filesystem (`pathExists`) and the
reader (`readArrow`) as explicit arguments.
-/

/-- One row of the dataset: `{"content": content, "score": score}` as built by
`read_arrow`. `content` is a nullable string column, `score` an integer. -/
structure Record where
  content : Option String
  score : Int
deriving DecidableEq

/-- `MIN_CONTENT_LEN = 10` from the script. -/
def MIN_CONTENT_LEN : Nat := 10

/-- Python `str.strip()` whitespace class restricted to ASCII: space, tab,
newline, carriage return, vertical tab, form feed. -/
def pyIsSpace (c : Char) : Bool :=
  c = ' ' || c = '\t' || c = '\n' || c = '\r' || c = '\x0b' || c = '\x0c'

/-- Python `s.strip()`: drop leading and trailing whitespace characters. -/
def pyStrip (s : String) : String :=
  String.mk (((s.data.dropWhile pyIsSpace).reverse.dropWhile pyIsSpace).reverse)

/-- First stage of `clean`: iterate in order, skip rows whose content is
`None`, keep a row only if its content string was not seen before.
`seen` is the accumulating `seen_content` set. -/
def dedupAux : List Record → List String → List Record
  | [], _ => []
  | r :: rs, seen =>
    match r.content with
    | none => dedupAux rs seen
    | some c =>
      if c ∈ seen then dedupAux rs seen
      else r :: dedupAux rs (c :: seen)

/-- The `deduped` list of `clean`: `seen_content` starts empty. -/
def dedupRecords (records : List Record) : List Record :=
  dedupAux records []

/-- The length-filter predicate `len(r["content"].strip()) >= MIN_CONTENT_LEN`.
Rows reaching this stage always have non-null content (the first stage dropped
`None`); a `none` here would make Python raise, modelled as `false`. -/
def lengthOK (r : Record) : Bool :=
  match r.content with
  | some c => decide (MIN_CONTENT_LEN ≤ (pyStrip c).length)
  | none => false

/-- The `length_filtered` list of `clean`. -/
def lengthFiltered (records : List Record) : List Record :=
  (dedupRecords records).filter lengthOK

/-- `content_scores[c]` of `clean`: the set of distinct scores attached to
content `c` in the given list, as a duplicate-free list. -/
def scoreSet (rs : List Record) (c : String) : List Int :=
  ((rs.filter (fun r => r.content == some c)).map Record.score).dedup

/-- `r["content"] in ambiguous`: the content of `r` maps to more than one
distinct score in `rs` (the length-filtered list in `clean`). -/
def isAmbiguous (rs : List Record) (r : Record) : Bool :=
  match r.content with
  | some c => decide (1 < (scoreSet rs c).length)
  | none => false

/-- `clean`: null-drop + dedup by content, length filter, then removal of
records whose content is ambiguous in the length-filtered list. -/
def clean (records : List Record) : List Record :=
  let lf := lengthFiltered records
  lf.filter (fun r => !isAmbiguous lf r)

/-- The simpler pipeline of claim C2: null-drop + dedup followed by the
length filter only, with no ambiguity stage. -/
def cleanSimple (records : List Record) : List Record :=
  (dedupAux records []).filter lengthOK

/-- Python `s.replace(pat, rep)` where `pat` and `rep` are single characters:
substitute every occurrence of `pat` by `rep`. -/
def pyReplaceChar (s : String) (pat rep : Char) : String :=
  String.mk (s.data.map (fun ch => if ch = pat then rep else ch))

/-- The sanitization applied to `content` before writing:
`content.replace("\t", " ").replace("\n", " ").replace("\r", " ")`. -/
def sanitize (c : String) : String :=
  pyReplaceChar (pyReplaceChar (pyReplaceChar c '\t' ' ') '\n' ' ') '\r' ' '

/-- One output line: `out.write(f"{content}\t{row['score']}\n")` after
sanitization. -/
def writeLine (c : String) (s : Int) : String :=
  sanitize c ++ "\t" ++ toString s ++ "\n"

/-- Path of the train partition, relative to the project root. -/
def TRAIN_ARROW : String :=
  "az_data/hajili_azerbaijani_review_sentiment_classification/train/data-00000-of-00001.arrow"

/-- Path of the test partition, relative to the project root. -/
def TEST_ARROW : String :=
  "az_data/hajili_azerbaijani_review_sentiment_classification/test/data-00000-of-00001.arrow"

/-- Outcome of `main`: either the process exits early with a message printed
to stderr and an exit status, or it completes with the cleaned record list
that gets serialized. -/
inductive MainResult where
  | exited : String → Nat → MainResult
  | ok : List Record → MainResult
deriving DecidableEq

/-- The control flow of `main` over an abstract filesystem: `pathExists`
models `Path.exists`, `readArrow` models reading an Arrow file. The loop
`for path in (TRAIN_ARROW, TEST_ARROW): if not path.exists(): ... sys.exit(1)`
exits at the first missing path; only afterwards are the files read,
concatenated (train then test) and cleaned. -/
def mainModel (pathExists : String → Bool) (readArrow : String → List Record) :
    MainResult :=
  match [TRAIN_ARROW, TEST_ARROW].find? (fun p => !pathExists p) with
  | some p => MainResult.exited ("ERROR: Arrow file not found: " ++ p) 1
  | none =>
    let train := readArrow TRAIN_ARROW
    let test := readArrow TEST_ARROW
    clean (train ++ test) |> MainResult.ok

/-! Helper lemmas about the dedup stage. -/

/-- The dedup stage only removes records: its output is a subsequence of its
input. -/
theorem dedupAux_sublist (rs : List Record) :
    ∀ seen, List.Sublist (dedupAux rs seen) rs := by
  induction rs with
  | nil => intro seen; simp [dedupAux]
  | cons q rs ih =>
    intro seen
    rw [dedupAux]
    cases hq : q.content with
    | none => exact (ih seen).cons q
    | some c =>
      by_cases hc : c ∈ seen
      · simp only [hc, if_true]
        exact (ih seen).cons q
      · simp only [hc, if_false]
        exact (ih (c :: seen)).cons₂ q

/-- Every record surviving the dedup stage has non-null content that is not in
the `seen` accumulator. -/
theorem dedupAux_content (rs : List Record) :
    ∀ seen r, r ∈ dedupAux rs seen → ∃ c, r.content = some c ∧ c ∉ seen := by
  induction rs with
  | nil => intro seen r h; simp [dedupAux] at h
  | cons q rs ih =>
    intro seen r h
    cases hq : q.content with
    | none =>
      simp only [dedupAux, hq] at h
      exact ih seen r h
    | some c =>
      by_cases hc : c ∈ seen
      · simp only [dedupAux, hq, if_pos hc] at h
        exact ih seen r h
      · simp only [dedupAux, hq, if_neg hc] at h
        rcases List.mem_cons.mp h with hr | hr
        · exact ⟨c, hr ▸ hq, hc⟩
        · obtain ⟨c', hc', hn⟩ := ih (c :: seen) r hr
          exact ⟨c', hc', fun hmem => hn (List.mem_cons_of_mem _ hmem)⟩

/-- The dedup stage produces pairwise distinct contents. -/
theorem dedupAux_pairwise (rs : List Record) :
    ∀ seen, (dedupAux rs seen).Pairwise (fun a b => a.content ≠ b.content) := by
  induction rs with
  | nil => intro seen; simp [dedupAux]
  | cons q rs ih =>
    intro seen
    cases hq : q.content with
    | none =>
      simp only [dedupAux, hq]
      exact ih seen
    | some c =>
      by_cases hc : c ∈ seen
      · simp only [dedupAux, hq, if_pos hc]
        exact ih seen
      · simp only [dedupAux, hq, if_neg hc]
        refine List.pairwise_cons.mpr ⟨?_, ih (c :: seen)⟩
        intro b hb
        obtain ⟨c', hc', hn⟩ := dedupAux_content rs (c :: seen) b hb
        rw [hq, hc']
        intro hcontra
        apply hn
        have : c = c' := Option.some.injEq c c' ▸ hcontra
        rw [← this]
        exact List.mem_cons_self c seen

/-- Every record kept by the dedup stage is the first record of the input
whose content equals its own. -/
theorem dedupAux_find (rs : List Record) :
    ∀ seen r, r ∈ dedupAux rs seen →
      rs.find? (fun q => q.content == r.content) = some r := by
  induction rs with
  | nil => intro seen r h; simp [dedupAux] at h
  | cons q rs ih =>
    intro seen r h
    cases hq : q.content with
    | none =>
      simp only [dedupAux, hq] at h
      obtain ⟨c', hc', _⟩ := dedupAux_content rs seen r h
      rw [List.find?_cons_of_neg, ih seen r h]
      simp [hq, hc']
    | some c =>
      by_cases hc : c ∈ seen
      · simp only [dedupAux, hq, if_pos hc] at h
        obtain ⟨c', hc', hn⟩ := dedupAux_content rs seen r h
        rw [List.find?_cons_of_neg, ih seen r h]
        simp [hq, hc']
        rintro rfl
        exact hn hc
      · simp only [dedupAux, hq, if_neg hc] at h
        rcases List.mem_cons.mp h with hr | hr
        · subst hr
          rw [List.find?_cons_of_pos]
          simp
        · obtain ⟨c', hc', hn⟩ := dedupAux_content rs (c :: seen) r hr
          rw [List.find?_cons_of_neg, ih (c :: seen) r hr]
          simp [hq, hc']
          rintro rfl
          exact hn (List.mem_cons_self _ _)

/-- A list of records with non-null, pairwise distinct contents (disjoint from
`seen`) passes the dedup stage untouched. -/
theorem dedupAux_eq_self (rs : List Record) :
    ∀ seen, (∀ r ∈ rs, ∃ c, r.content = some c ∧ c ∉ seen) →
      rs.Pairwise (fun a b => a.content ≠ b.content) → dedupAux rs seen = rs := by
  induction rs with
  | nil => intro seen _ _; rfl
  | cons q rs ih =>
    intro seen hmem hpw
    obtain ⟨c, hqc, hcs⟩ := hmem q (List.mem_cons_self _ _)
    obtain ⟨hq, hrs⟩ := List.pairwise_cons.mp hpw
    simp only [dedupAux, hqc, if_neg hcs]
    congr 1
    apply ih (c :: seen) _ hrs
    intro r hr
    obtain ⟨c', hc', hn⟩ := hmem r (List.mem_cons_of_mem _ hr)
    refine ⟨c', hc', ?_⟩
    intro hmem'
    rcases List.mem_cons.mp hmem' with rfl | hmem'
    · exact hq r hr (hqc.trans hc'.symm)
    · exact hn hmem'

/-- In a list with pairwise distinct contents, filtering for the content of a
member yields exactly that member. -/
theorem filter_content_singleton (rs : List Record)
    (hpw : rs.Pairwise (fun a b => a.content ≠ b.content)) :
    ∀ r ∈ rs, ∀ c, r.content = some c →
      rs.filter (fun q => q.content == some c) = [r] := by
  induction rs with
  | nil => intro r h; simp at h
  | cons q rs ih =>
    obtain ⟨hq, hrs⟩ := List.pairwise_cons.mp hpw
    intro r h c hc
    rcases List.mem_cons.mp h with rfl | hr
    · rw [List.filter_cons_of_pos (by simp [hc]), List.filter_eq_nil_iff.mpr]
      intro x hx
      simp only [beq_iff_eq]
      exact fun hx' => hq x hx (hc.trans hx'.symm)
    · rw [List.filter_cons_of_neg (by simp; exact fun h' => hq r hr (h'.trans hc.symm))]
      exact ih hrs r hr c hc

/-- The distinct-score set of a content string present in a
pairwise-distinct-content list is a singleton. -/
theorem scoreSet_singleton (rs : List Record)
    (hpw : rs.Pairwise (fun a b => a.content ≠ b.content)) :
    ∀ r ∈ rs, ∀ c, r.content = some c → scoreSet rs c = [r.score] := by
  intro r hr c hc
  rw [scoreSet, filter_content_singleton rs hpw r hr c hc]
  simp [List.dedup_cons_of_not_mem]

/-- Over a list with pairwise distinct contents the ambiguity filter keeps
everything. -/
theorem ambiguity_filter_id (rs : List Record)
    (hpw : rs.Pairwise (fun a b => a.content ≠ b.content)) :
    rs.filter (fun r => !isAmbiguous rs r) = rs := by
  apply List.filter_eq_self.mpr
  intro r hr
  cases hc : r.content with
  | none => simp [isAmbiguous, hc]
  | some c =>
    simp [isAmbiguous, hc, scoreSet_singleton rs hpw r hr c hc]

/-- Records surviving the length filter have pairwise distinct contents. -/
theorem lengthFiltered_pairwise (records : List Record) :
    (lengthFiltered records).Pairwise (fun a b => a.content ≠ b.content) :=
  (dedupAux_pairwise records []).sublist (List.filter_sublist _)

/-- The ambiguity filter inside `clean` removes nothing: `clean` equals the
dedup stage followed by the length filter. -/
theorem clean_eq_lengthFiltered (records : List Record) :
    clean records = lengthFiltered records :=
  ambiguity_filter_id (lengthFiltered records) (lengthFiltered_pairwise records)

-- Scenario sanity checks (from the spec's §8), kept as compiled examples.
example :
    clean [⟨some "hello world", 5⟩, ⟨some "hi", 3⟩] = [⟨some "hello world", 5⟩] := by
  decide

example :
    clean [⟨some "great product!!", 5⟩, ⟨some "great product!!", 5⟩] =
      [⟨some "great product!!", 5⟩] := by
  decide

example : clean [⟨none, 4⟩] = [] := by decide

/-! Claim theorems. -/

/-- C1 (code bug witness): on input
`[("bad experience", 1), ("bad experience", 5)]` the code returns
`[("bad experience", 1)]`, not `[]` as the spec's Scenario 3 states: the dedup
stage removes the second record before the ambiguity filter ever sees both
scores, so the ambiguity filter removes nothing. -/
theorem clean_scenario3_keeps_first :
    clean [Record.mk (some "bad experience") 1,
           Record.mk (some "bad experience") 5] =
      [Record.mk (some "bad experience") 1] := by
  decide

/-- C2: the ambiguous set computed inside `clean` is always empty — every
content's distinct-score set over the length-filtered list has at most one
element — so `clean` is extensionally equal to the pipeline consisting only of
the null-drop+dedup stage followed by the length filter. -/
theorem clean_ambiguous_empty_eq_simple (records : List Record) :
    (∀ c, (scoreSet (lengthFiltered records) c).length ≤ 1) ∧
      clean records = cleanSimple records := by
  constructor
  · intro c
    by_cases h : ∃ r ∈ lengthFiltered records, r.content = some c
    · obtain ⟨r, hr, hc⟩ := h
      simp [scoreSet_singleton _ (lengthFiltered_pairwise records) r hr c hc]
    · rw [scoreSet, List.filter_eq_nil_iff.mpr]
      · simp
      · intro x hx
        simp only [beq_iff_eq]
        exact fun hx' => h ⟨x, hx, hx'⟩
  · exact clean_eq_lengthFiltered records

/-- C3: `clean` is idempotent — cleaning its own output changes nothing. -/
theorem clean_idempotent (records : List Record) :
    clean (clean records) = clean records := by
  have h1 : clean records = lengthFiltered records :=
    clean_eq_lengthFiltered records
  have hpw : (clean records).Pairwise (fun a b => a.content ≠ b.content) := by
    rw [h1]; exact lengthFiltered_pairwise records
  have hmem : ∀ r ∈ clean records,
      ∃ c, r.content = some c ∧ c ∉ ([] : List String) := by
    intro r hr
    rw [h1] at hr
    obtain ⟨c, hc, _⟩ :=
      dedupAux_content records [] r (List.mem_of_mem_filter hr)
    exact ⟨c, hc, by simp⟩
  have hdedup : dedupRecords (clean records) = clean records :=
    dedupAux_eq_self (clean records) [] hmem hpw
  have hlen : (clean records).filter lengthOK = clean records := by
    apply List.filter_eq_self.mpr
    intro r hr
    rw [h1] at hr
    exact List.of_mem_filter hr
  calc clean (clean records)
      = lengthFiltered (clean records) := clean_eq_lengthFiltered (clean records)
    _ = (clean records).filter lengthOK := by rw [lengthFiltered, hdedup]
    _ = clean records := hlen

/-- C4: in the output of `clean` no two records share a content string, and
every output record is the first input record carrying its content. -/
theorem clean_unique_first_seen (records : List Record) :
    (clean records).Pairwise (fun a b => a.content ≠ b.content) ∧
      ∀ r ∈ clean records,
        records.find? (fun q => q.content == r.content) = some r := by
  constructor
  · exact (lengthFiltered_pairwise records).sublist (List.filter_sublist _)
  · intro r hr
    rw [clean_eq_lengthFiltered records] at hr
    exact dedupAux_find records [] r (List.mem_of_mem_filter hr)

/-- Witness for C4 at spec Scenario 2: the duplicated record is found first. -/
theorem clean_unique_first_seen_witness :
    List.find?
      (fun q => q.content == (Record.mk (some "great product!!") 5).content)
      [Record.mk (some "great product!!") 5,
       Record.mk (some "great product!!") 5] =
      some (Record.mk (some "great product!!") 5) :=
  (clean_unique_first_seen
    [Record.mk (some "great product!!") 5,
     Record.mk (some "great product!!") 5]).2
    (Record.mk (some "great product!!") 5) (by decide)

/-- C5: every record in the output of `clean` has non-null content whose
stripped length, in characters, is at least `MIN_CONTENT_LEN = 10`. -/
theorem clean_min_content_len (records : List Record) :
    ∀ r ∈ clean records,
      ∃ c, r.content = some c ∧ MIN_CONTENT_LEN ≤ (pyStrip c).length := by
  intro r hr
  rw [clean_eq_lengthFiltered records] at hr
  have hok := List.of_mem_filter hr
  cases hc : r.content with
  | none =>
    rw [lengthOK, hc] at hok
    simp at hok
  | some c =>
    rw [lengthOK, hc] at hok
    exact ⟨c, rfl, of_decide_eq_true hok⟩

/-- Witness for C5 at spec Scenario 1's surviving record. -/
theorem clean_min_content_len_witness :
    ∃ c, (Record.mk (some "hello world") 5).content = some c ∧
      MIN_CONTENT_LEN ≤ (pyStrip c).length :=
  clean_min_content_len [Record.mk (some "hello world") 5]
    (Record.mk (some "hello world") 5) (by decide)

/-- Surviving records form a subsequence of the input. -/
theorem clean_sublist_input (records : List Record) :
    List.Sublist (clean records) records :=
  ((List.filter_sublist _).trans (List.filter_sublist _)).trans
    (dedupAux_sublist records [])

/-- C6: `clean` preserves the relative input order of surviving records — its
output is a subsequence of its input list (and, being a pure Lean function,
it is deterministic in its input). -/
theorem clean_order_preserving (records : List Record) :
    List.Sublist (clean records) records :=
  clean_sublist_input records

/-- C7: for every content string in the output of `clean`, the set of distinct
scores attached to it in the length-filtered intermediate list has exactly one
element. -/
theorem clean_no_ambiguity (records : List Record) :
    ∀ r ∈ clean records, ∀ c, r.content = some c →
      (scoreSet (lengthFiltered records) c).length = 1 := by
  intro r hr c hc
  rw [clean_eq_lengthFiltered records] at hr
  rw [scoreSet_singleton _ (lengthFiltered_pairwise records) r hr c hc]
  rfl

/-- Witness for C7 at a concrete surviving record. -/
theorem clean_no_ambiguity_witness :
    (scoreSet (lengthFiltered [Record.mk (some "bad experience") 1])
      "bad experience").length = 1 :=
  clean_no_ambiguity [Record.mk (some "bad experience") 1]
    (Record.mk (some "bad experience") 1) (by decide) "bad experience" rfl

/-- C8: serialization replaces every tab, newline and carriage return inside
the content by a single space, and the concrete record `("a\tb", 2)` is
written as the line `"a b\t2\n"`. -/
theorem writeLine_replaces_control_chars :
    (∀ c : String, (sanitize c).data =
      c.data.map (fun ch =>
        if ch = '\t' ∨ ch = '\n' ∨ ch = '\r' then ' ' else ch)) ∧
      writeLine "a\tb" 2 = "a b\t2\n" := by
  constructor
  · intro c
    simp only [sanitize, pyReplaceChar, List.map_map]
    apply List.map_congr_left
    intro ch _
    by_cases h1 : ch = '\t' <;> by_cases h2 : ch = '\n' <;>
      by_cases h3 : ch = '\r' <;> simp [h1, h2, h3, Function.comp]
  · decide

/-- C9: if either input path is missing, `main` exits with status 1 and the
error message on stderr, independently of the reader — no file is read and no
record is processed. -/
theorem mainModel_missing_input (pathExists : String → Bool)
    (h : pathExists TRAIN_ARROW = false ∨ pathExists TEST_ARROW = false) :
    ∃ p, pathExists p = false ∧ ∀ readArrow,
      mainModel pathExists readArrow =
        MainResult.exited ("ERROR: Arrow file not found: " ++ p) 1 := by
  by_cases htr : pathExists TRAIN_ARROW = false
  · refine ⟨TRAIN_ARROW, htr, ?_⟩
    intro readArrow
    simp [mainModel, List.find?, htr]
  · have htr' : pathExists TRAIN_ARROW = true := by
      cases hh : pathExists TRAIN_ARROW
      · exact absurd hh htr
      · rfl
    have hte : pathExists TEST_ARROW = false := h.resolve_left htr
    refine ⟨TEST_ARROW, hte, ?_⟩
    intro readArrow
    simp [mainModel, List.find?, htr', hte]

/-- Witness for C9: with no file present, `main` exits with status 1. -/
theorem mainModel_missing_input_witness :
    ∃ p, (fun _ : String => false) p = false ∧ ∀ readArrow,
      mainModel (fun _ => false) readArrow =
        MainResult.exited ("ERROR: Arrow file not found: " ++ p) 1 :=
  mainModel_missing_input (fun _ => false) (Or.inl rfl)

/-- C10: the output of `clean` is a subsequence of its input — every output
record is an unmodified input record — and `clean` of the empty list is the
empty list. -/
theorem clean_subsequence_and_nil (records : List Record) :
    List.Sublist (clean records) records ∧ clean ([] : List Record) = [] :=
  ⟨clean_sublist_input records, rfl⟩
